import Mathlib

/-!
Shallow embedding of the frequency-planning / tone-synthesis / bit-packing
pipeline of `DataReadout/ChannelizerControls/Roach2Controls.py`, together
with proofs of the spec claims about it.

Frequencies, attenuations and phases are embedded as exact rationals
(the Python code computes with floats; the spec's algebraic claims are
stated over exact arithmetic).  Python integers are arbitrary precision,
so sample words are embedded as `Nat`/`Int` with explicit powers of two
for the shifts: on non-negative operands Python's `x << k` is
`x * 2 ^ k`, `x >> k` is `x / 2 ^ k`, and `x & (2 ^ w - 1)` is
`x % 2 ^ w`.
-/

namespace Roach2

/-- Embedding of `np.round`: round half to even (banker's rounding),
which is numpy's rounding rule. -/
def npRound (q : ℚ) : ℤ :=
  if q - ⌊q⌋ < 1/2 then ⌊q⌋
  else if 1/2 < q - ⌊q⌋ then ⌊q⌋ + 1
  else if ⌊q⌋ % 2 = 0 then ⌊q⌋ else ⌊q⌋ + 1

/-- Quantization of a frequency to the grid `sampleRate / nSamples`,
from `generateTones` (Roach2Controls.py lines 766-767):
`freqResolution = sampleRate/nSamples;
 quantizedFreqList = np.round(freqList/freqResolution)*freqResolution`. -/
def quantizeFreq (sampleRate : ℚ) (nSamples : ℕ) (f : ℚ) : ℚ :=
  npRound (f / (sampleRate / (nSamples : ℚ))) * (sampleRate / (nSamples : ℚ))

/-- Per-column bit shifts:
`colBitShifts = nBitsPerSamplePair*(np.arange(nSamplesPerCycle))`,
reversed when `earlierSampleIsMsb` (line 405-408). -/
def colBitShifts (nBitsPerSamplePair n : ℕ) (earlierSampleIsMsb : Bool) : List ℕ :=
  let s := (List.range n).map (fun j => nBitsPerSamplePair * j)
  if earlierSampleIsMsb then s.reverse else s

/-- Shift each value left by the matching shift and sum
(`np.sum(iqRows<<colBitShifts,axis=1)`, line 410, acting on one row). -/
def shiftSum (vals shifts : List ℕ) : ℕ :=
  (List.zipWith (fun d s => d * 2 ^ s) vals shifts).sum

/-- Wide row value of one row of combined IQ samples (line 410). -/
def iqRowVal (nBitsPerSamplePair : ℕ) (earlierSampleIsMsb : Bool) (row : List ℕ) : ℕ :=
  shiftSum row (colBitShifts nBitsPerSamplePair row.length earlierSampleIsMsb)

/-- Per-bank shifts: `memMaskShifts = nBitsPerMemRow*np.arange(nMems)[::-1]`
(line 416): bank 0 holds the most significant bits. -/
def memMaskShifts (nBitsPerMemRow nMems : ℕ) : List ℕ :=
  ((List.range nMems).map (fun k => nBitsPerMemRow * k)).reverse

/-- Split one wide row into `nMems` bank values
(`(iqRowVals >> memMaskShifts) & memRowBitmask`, lines 415-418). -/
def splitRow (nBitsPerMemRow nMems v : ℕ) : List ℕ :=
  (memMaskShifts nBitsPerMemRow nMems).map (fun s => v / 2 ^ s % 2 ^ nBitsPerMemRow)

/-- Embedding of `np.reshape(iqVals, (-1, nSamplesPerCycle))` (line 403):
element `(r, j)` of the result is element `r*n + j` of the input. -/
def toRows {α : Type} (d : α) (n : ℕ) (l : List α) : List (List α) :=
  (List.range (l.length / n)).map (fun r => (List.range n).map (fun j => l.getD (r * n + j) d))

/-- Embedding of `formatWaveForMem` (lines 391-421).  Row `r` of the result
holds the `nMems` bank values (bank 0 first, most significant) of the
`r`-th wide row.  `iqVals = (iVals << nBitsPerSampleComponent) + qVals`
with `nBitsPerSampleComponent = nBitsPerSamplePair / 2` (lines 400-402). -/
def formatWaveForMem (iVals qVals : List ℕ)
    (nBitsPerSamplePair nSamplesPerCycle nMems nBitsPerMemRow : ℕ)
    (earlierSampleIsMsb : Bool) : List (List ℕ) :=
  let half := nBitsPerSamplePair / 2
  let iqVals := (iVals.zip qVals).map (fun p => p.1 * 2 ^ half + p.2)
  (toRows 0 nSamplesPerCycle iqVals).map
    (fun row => splitRow nBitsPerMemRow nMems (iqRowVal nBitsPerSamplePair earlierSampleIsMsb row))

/-- Reassemble one wide row from its bank values, most significant bank
first (inverse of `splitRow`). -/
def recombineRow (nBitsPerMemRow : ℕ) (chunks : List ℕ) : ℕ :=
  shiftSum chunks (memMaskShifts nBitsPerMemRow chunks.length)

/-- Recover the `n` combined IQ values of one wide row by undoing the
per-column shifts. -/
def unpackRow (nBitsPerSamplePair n nBitsPerMemRow : ℕ) (earlierSampleIsMsb : Bool)
    (chunks : List ℕ) : List ℕ :=
  let v := recombineRow nBitsPerMemRow chunks
  (colBitShifts nBitsPerSamplePair n earlierSampleIsMsb).map
    (fun s => v / 2 ^ s % 2 ^ nBitsPerSamplePair)

/-- Split a combined value back into its I and Q components. -/
def splitIQ (half iq : ℕ) : ℕ × ℕ := (iq / 2 ^ half, iq % 2 ^ half)

/-- Unpack a whole memory image back into the I and Q sample lists. -/
def unpackMem (nBitsPerSamplePair n nBitsPerMemRow : ℕ) (earlierSampleIsMsb : Bool)
    (mem : List (List ℕ)) : List ℕ × List ℕ :=
  let iqVals := (mem.map (unpackRow nBitsPerSamplePair n nBitsPerMemRow earlierSampleIsMsb)).flatten
  (iqVals.map (fun iq => (splitIQ (nBitsPerSamplePair / 2) iq).1),
   iqVals.map (fun iq => (splitIQ (nBitsPerSamplePair / 2) iq).2))

/-- Value of a little-endian digit list in base `B`. -/
def ofDigits (B : ℕ) : List ℕ → ℕ
  | [] => 0
  | d :: rest => d + B * ofDigits B rest

/-- The `n` little-endian base-`B` digits of `v`. -/
def digitsOf (B n v : ℕ) : List ℕ :=
  (List.range n).map (fun m => v / B ^ m % B)

inductive PackOrder : Type
  | F : PackOrder
  | C : PackOrder

/-- Pad value for frequency grids (`self.freqPadValue = -1`, line 118). -/
def freqPadValue : ℚ := -1

/-- Number of pad entries:
`padNum = (nStreams - (len(freqChannels) % nStreams)) % nStreams` (line 820). -/
def padNum (nStreams len0 : ℕ) : ℕ := (nStreams - len0 % nStreams) % nStreams

/-- Ceiling division, the exact value of `np.ceil(a * 1.0 / b)` for
natural `a`, `b`. -/
def ceilDiv (a b : ℕ) : ℕ := (a + b - 1) / b

/-- Order-`'F'` padding loop (lines 823-825): for `i` in `0..padCnt-1`,
insert the pad value at index `len(freqChannels) - i*ceil(len(freqChannels)/nStreams)`
where `len(freqChannels)` is the current (growing) length.  The index is
non-negative in every reachable iteration (proved below), so natural
subtraction is faithful to the source's arithmetic. -/
def insertPadsF (nStreams padCnt : ℕ) (freqs : List ℚ) : List ℚ :=
  (List.range padCnt).foldl
    (fun cur i =>
      cur.insertIdx (cur.length - i * ceilDiv cur.length nStreams) freqPadValue)
    freqs

/-- Padded 1-D frequency sequence before reshaping (lines 822-827):
order `'F'` uses the insertion loop, otherwise the pad entries are
appended at the end (`np.append`). -/
def padFreqs (nStreams : ℕ) (order : PackOrder) (freqs : List ℚ) : List ℚ :=
  match order with
  | PackOrder.F => insertPadsF nStreams (padNum nStreams freqs.length) freqs
  | PackOrder.C => freqs ++ List.replicate (padNum nStreams freqs.length) freqPadValue

/-- Column-major reshape `np.reshape(l, (-1, s), order='F')`: cell
`(r, c)` of the grid is element `c * nRows + r` of the flat sequence. -/
def reshapeF {α : Type} (d : α) (s : ℕ) (l : List α) : List (List α) :=
  (List.range (l.length / s)).map
    (fun r => (List.range s).map (fun c => l.getD (c * (l.length / s) + r) d))

/-- Embedding of `generateResonatorChannels` (lines 791-836): truncate to
`nChannels` frequencies, pad to a multiple of
`nStreams = nChannels / nChannelsPerStream` with `-1`, and reshape into a
`(nChannels per stream) × nStreams` grid in the requested order. -/
def generateResonatorChannels (nChannels nChannelsPerStream : ℕ) (order : PackOrder)
    (freqList : List ℚ) : List (List ℚ) :=
  let freqs := freqList.take nChannels
  let nStreams := nChannels / nChannelsPerStream
  let padded := padFreqs nStreams order freqs
  match order with
  | PackOrder.F => reshapeF freqPadValue nStreams padded
  | PackOrder.C => toRows freqPadValue nStreams padded

/-- The `j`-th run of consecutive original frequencies that ends up
between two pad slots under order-`'F'` padding. -/
def padSeg (nS : ℕ) (freqs : List ℚ) (j : ℕ) : List ℚ :=
  ((freqs.drop (freqs.length - padNum nS freqs.length * (ceilDiv freqs.length nS - 1))).drop
    (j * (ceilDiv freqs.length nS - 1))).take (ceilDiv freqs.length nS - 1)

/-- Instrument parameters used by the bin-mapping stage. -/
structure FftParams where
  LOFreq : ℚ
  dacSampleRate : ℚ
  nDacSamplesPerCycle : ℕ
  nLutRowsToUse : ℕ
  nFftBins : ℕ

/-- DAC frequency resolution
`freqResolution = dacSampleRate/(nDacSamplesPerCycle*nLutRowsToUse)`
(line 866, also line 249). -/
def dacFreqResolution (P : FftParams) : ℚ :=
  P.dacSampleRate / ((P.nDacSamplesPerCycle : ℚ) * (P.nLutRowsToUse : ℚ))

/-- Down-convert and alias:
`dacFreqChannels = freqChannels - LOFreq;
 dacFreqChannels[dacFreqChannels < 0] += dacSampleRate` (lines 864-865). -/
def aliasDac (P : FftParams) (f : ℚ) : ℚ :=
  if f - P.LOFreq < 0 then f - P.LOFreq + P.dacSampleRate else f - P.LOFreq

/-- DAC-quantized down-converted frequency (line 867, also line 250). -/
def dacQuantizedFreq (P : FftParams) (f : ℚ) : ℚ :=
  npRound (aliasDac P f / dacFreqResolution P) * dacFreqResolution P

/-- Computed fft bin index of one cell:
`binSpacing = dacSampleRate/nFftBins; genBinIndex = dacQuantized/binSpacing;
 fftBinInd = round(genBinIndex)` (lines 870-872). -/
def fftBinIndex (P : FftParams) (f : ℚ) : ℤ :=
  npRound (dacQuantizedFreq P f / (P.dacSampleRate / (P.nFftBins : ℚ)))

/-- Pad value for bin-index grids (`self.fftBinPadValue = 0`, line 119). -/
def fftBinPadValue : ℤ := 0

/-- Bin index of one grid cell including the pad override:
`fftBinIndChannels[freqChannels < 0] = fftBinPadValue` (line 873). -/
def fftBinOrPad (P : FftParams) (f : ℚ) : ℤ :=
  if f < 0 then fftBinPadValue else fftBinIndex P f

/-- Embedding of `generateFftChanSelection` (lines 840-881): element-wise
bin computation over the frequency grid, with negative (pad) source
frequencies overridden to bin 0. -/
def generateFftChanSelection (P : FftParams) (freqChannels : List (List ℚ)) :
    List (List ℤ) :=
  freqChannels.map (fun row => row.map (fftBinOrPad P))

/-- Session state touched by `generateDacComb`. -/
structure DacState where
  freqList : List ℚ
  attenList : List ℚ
  LOFreq : Option ℚ
deriving DecidableEq

inductive DacCombError : Type
  | lengthMismatch : DacCombError
  | attenuationInfeasible : DacCombError
  | missingLO : DacCombError
deriving DecidableEq

/-- Values reaching the tone-synthesis stage when validation passes. -/
structure DacProceed where
  freqList : List ℚ
  attenList : List ℚ
  dacFreqList : List ℚ
deriving DecidableEq

/-- Truncation applied when more entries than `nChannels` are provided
(lines 628-630 and 635-637; a warning, not an error). -/
def truncList (nChannels : ℕ) (l : List ℚ) : List ℚ :=
  if nChannels < l.length then l.take nChannels else l

/-- The effective frequency list: the argument, or the stored
`self.freqList` when `None` (lines 626-631). -/
def dacFl (nChannels : ℕ) (st : DacState) (freqListArg : Option (List ℚ)) : List ℚ :=
  truncList nChannels (freqListArg.getD st.freqList)

/-- The effective attenuation list: the argument, or all-20 defaults
(lines 632-638). -/
def dacRa (nChannels : ℕ) (st : DacState) (freqListArg resAttenListArg : Option (List ℚ)) :
    List ℚ :=
  truncList nChannels
    (resAttenListArg.getD (List.replicate (dacFl nChannels st freqListArg).length 20))

/-- Check of line 641: a phase list was supplied and its length differs
from the frequency list's. -/
def phaseLenMismatch (phaseListArg : Option (List ℚ)) (n : ℕ) : Bool :=
  match phaseListArg with
  | none => false
  | some ph => decide (ph.length ≠ n)

/-- Embedding of the validation-and-state prefix of `generateDacComb`
(lines 625-664).  Mirrors the source order: length checks (639-642), the
attenuation-feasibility check (643-644), the session-state writes
`self.attenList = resAttenList; self.freqList = freqList` (645-646), the
LO check (661-662), and the aliased DAC frequency list (663-664). -/
def generateDacCombCheck (nChannels : ℕ) (dacSampleRate : ℚ) (st : DacState)
    (freqListArg resAttenListArg : Option (List ℚ)) (globalDacAtten : ℚ)
    (phaseListArg : Option (List ℚ)) : DacState × Except DacCombError DacProceed :=
  if (dacFl nChannels st freqListArg).length
      ≠ (dacRa nChannels st freqListArg resAttenListArg).length then
    (st, Except.error DacCombError.lengthMismatch)
  else if phaseLenMismatch phaseListArg (dacFl nChannels st freqListArg).length then
    (st, Except.error DacCombError.lengthMismatch)
  else if (dacRa nChannels st freqListArg resAttenListArg).any
      (fun a => a < globalDacAtten) then
    (st, Except.error DacCombError.attenuationInfeasible)
  else
    match st.LOFreq with
    | none =>
        ({ st with freqList := dacFl nChannels st freqListArg,
                   attenList := dacRa nChannels st freqListArg resAttenListArg },
         Except.error DacCombError.missingLO)
    | some lo =>
        ({ st with freqList := dacFl nChannels st freqListArg,
                   attenList := dacRa nChannels st freqListArg resAttenListArg },
         Except.ok
           { freqList := dacFl nChannels st freqListArg,
             attenList := dacRa nChannels st freqListArg resAttenListArg,
             dacFreqList := (dacFl nChannels st freqListArg).map
               (fun f => if f - lo < 0 then f - lo + dacSampleRate else f - lo) })

/-- One stream of interleaved DDS samples: block `b` holds, for each
channel row in order, samples `b*spc .. b*spc+spc-1` of that row
(reshape to `(nChannelsPerStream, -1, spc)`, `swapaxes(0,1)`, C-order
flatten; lines 298-303). -/
def interleaveRows (spc nBlocks : ℕ) (rows : List (List ℤ)) : List ℤ :=
  ((List.range nBlocks).map
    (fun b => (rows.map (fun row => (row.drop (b * spc)).take spc)).flatten)).flatten

/-- Embedding of the per-stream body of `generateDdsTones` (lines
268-307): tone rows for the cells with strictly positive DAC-quantized
frequency, zero rows for the rest of the stream's channels, interleaved. -/
def ddsStream (P : FftParams) (nChannelsPerStream nDdsSamples spc : ℕ)
    (toneRow : ℚ × ℤ × ℚ → List ℤ) (col : List (ℚ × ℤ × ℚ)) : List ℤ :=
  interleaveRows spc (nDdsSamples / spc)
    ((col.filter (fun c => 0 < dacQuantizedFreq P c.1)).map toneRow
      ++ List.replicate
          (nChannelsPerStream - (col.filter (fun c => 0 < dacQuantizedFreq P c.1)).length)
          (List.replicate nDdsSamples 0))

theorem npRound_intCast (k : ℤ) : npRound (k : ℚ) = k := by
  simp [npRound]

/-- C8: frequency quantization as computed by `generateTones` is
idempotent: for every frequency `f` and positive resolution
`sampleRate / nSamples`, `quantize (quantize f) = quantize f`. -/
theorem quantizeFreq_idem (sampleRate : ℚ) (nSamples : ℕ) (f : ℚ)
    (hres : 0 < sampleRate / (nSamples : ℚ)) :
    quantizeFreq sampleRate nSamples (quantizeFreq sampleRate nSamples f)
      = quantizeFreq sampleRate nSamples f := by
  unfold quantizeFreq
  rw [mul_div_cancel_right₀ _ (ne_of_gt hres), npRound_intCast]

/-- C8 witness: the idempotence theorem applied at the spec's concrete
scenario `sampleRate = 100000`, `nSamples = 1000`, `f = 1000`. -/
theorem quantizeFreq_idem_witness :
    quantizeFreq 100000 1000 (quantizeFreq 100000 1000 1000)
      = quantizeFreq 100000 1000 1000 :=
  quantizeFreq_idem 100000 1000 1000 (div_pos (by decide) (by decide))

/-!
### MemoryPacker: `formatWaveForMem` (Roach2Controls.py lines 391-421)

The Python code operates on non-negative arbitrary-precision integers
(numpy arrays with `dtype=object`); values are embedded as `Nat`, with
`x << k` as `x * 2 ^ k`, `x >> k` as `x / 2 ^ k` and `x & (2 ^ w - 1)`
as `x % 2 ^ w`.
-/

/-!
The unpacking procedure below is modelled from the spec's description of
the round-trip (the source has no unpacker): reassemble each wide row
most-significant bank first, undo the per-column shifts (reversed when
`earlierSampleIsMsb`), and split each combined value as
`combined = (I << bitsPerSamplePair/2) | Q`.
-/

/-! ### Base-`B` digit arithmetic used to reason about the bit-packing -/

theorem ofDigits_lt (B : ℕ) (l : List ℕ) (h : ∀ d ∈ l, d < B) :
    ofDigits B l < B ^ l.length := by
  induction l with
  | nil => simp [ofDigits]
  | cons d rest ih =>
    have hd : d < B := h d (List.mem_cons_self d rest)
    have hr : ofDigits B rest < B ^ rest.length :=
      ih (fun x hx => h x (List.mem_cons_of_mem d hx))
    have h1 : d + B * ofDigits B rest < B * (ofDigits B rest + 1) := by
      rw [Nat.mul_succ]; omega
    have h2 : B * (ofDigits B rest + 1) ≤ B * B ^ rest.length :=
      Nat.mul_le_mul_left B hr
    calc ofDigits B (d :: rest) = d + B * ofDigits B rest := rfl
      _ < B * (ofDigits B rest + 1) := h1
      _ ≤ B * B ^ rest.length := h2
      _ = B ^ (d :: rest).length := by rw [List.length_cons, pow_succ, Nat.mul_comm]

theorem ofDigits_div_pow_mod (B : ℕ) (hB : 0 < B) (l : List ℕ) (h : ∀ d ∈ l, d < B) :
    ∀ m, m < l.length → ofDigits B l / B ^ m % B = l.getD m 0 := by
  induction l with
  | nil => intro m hm; simp at hm
  | cons d rest ih =>
    intro m hm
    have hd : d < B := h d (List.mem_cons_self d rest)
    have hrest : ∀ x ∈ rest, x < B := fun x hx => h x (List.mem_cons_of_mem d hx)
    match m with
    | 0 =>
      show ofDigits B (d :: rest) / B ^ 0 % B = d
      rw [pow_zero, Nat.div_one]
      show (d + B * ofDigits B rest) % B = d
      rw [Nat.add_mul_mod_self_left]
      exact Nat.mod_eq_of_lt hd
    | m + 1 =>
      have hdiv : ofDigits B (d :: rest) / B ^ (m + 1) = ofDigits B rest / B ^ m := by
        rw [pow_succ', ← Nat.div_div_eq_div_mul]
        congr 1
        show (d + B * ofDigits B rest) / B = ofDigits B rest
        rw [Nat.add_mul_div_left _ _ hB, Nat.div_eq_of_lt hd, Nat.zero_add]
      rw [hdiv]
      have : rest.getD m 0 = (d :: rest).getD (m + 1) 0 := rfl
      rw [← this]
      exact ih hrest m (by simpa using hm)

theorem digitsOf_succ (B n v : ℕ) : digitsOf B (n + 1) v = v % B :: digitsOf B n (v / B) := by
  unfold digitsOf
  rw [List.range_succ_eq_map, List.map_cons, List.map_map]
  congr 1
  · simp
  · apply List.map_congr_left
    intro m _
    show v / B ^ (m + 1) % B = v / B / B ^ m % B
    rw [pow_succ', ← Nat.div_div_eq_div_mul]

theorem ofDigits_digitsOf (B : ℕ) (hB : 0 < B) :
    ∀ n v, v < B ^ n → ofDigits B (digitsOf B n v) = v := by
  intro n
  induction n with
  | zero =>
    intro v hv
    have : v = 0 := by simpa using hv
    simp [this, digitsOf, ofDigits]
  | succ n ih =>
    intro v hv
    rw [digitsOf_succ]
    show v % B + B * ofDigits B (digitsOf B n (v / B)) = v
    rw [ih (v / B) ((Nat.div_lt_iff_lt_mul hB).mpr (by rw [← pow_succ]; exact hv))]
    exact Nat.mod_add_div v B

theorem shiftSum_shifted (B k : ℕ) (l : List ℕ) :
    shiftSum l ((List.range l.length).map (fun j => B * j + k)) = 2 ^ k * ofDigits (2 ^ B) l := by
  induction l generalizing k with
  | nil => simp [shiftSum, ofDigits]
  | cons a rest ih =>
    have hmap : (List.range (rest.length + 1)).map (fun j => B * j + k)
        = (B * 0 + k) :: (List.range rest.length).map (fun j => B * j + (B + k)) := by
      rw [List.range_succ_eq_map, List.map_cons, List.map_map]
      congr 1
      apply List.map_congr_left
      intro j _
      show B * (j + 1) + k = B * j + (B + k)
      rw [Nat.mul_succ]; omega
    rw [List.length_cons, hmap]
    unfold shiftSum
    rw [List.zipWith_cons_cons, List.sum_cons]
    have hih := ih (B + k)
    unfold shiftSum at hih
    rw [hih]
    show a * 2 ^ (B * 0 + k) + 2 ^ (B + k) * ofDigits (2 ^ B) rest
        = 2 ^ k * (a + 2 ^ B * ofDigits (2 ^ B) rest)
    rw [Nat.mul_zero, Nat.zero_add, pow_add]
    ring

theorem iqRowVal_false (pair : ℕ) (row : List ℕ) :
    iqRowVal pair false row = ofDigits (2 ^ pair) row := by
  unfold iqRowVal colBitShifts
  simp only [Bool.false_eq_true, if_false]
  have h := shiftSum_shifted pair 0 row
  simpa using h

theorem shiftSum_reverse (f : List ℕ) (s : List ℕ) (h : f.length = s.length) :
    shiftSum f s.reverse = shiftSum f.reverse s := by
  unfold shiftSum
  rw [← List.sum_reverse (List.zipWith _ f s.reverse),
    List.reverse_zipWith (by simpa using h), List.reverse_reverse]

theorem iqRowVal_true (pair : ℕ) (row : List ℕ) :
    iqRowVal pair true row = ofDigits (2 ^ pair) row.reverse := by
  unfold iqRowVal colBitShifts
  simp only [if_true]
  rw [shiftSum_reverse row _ (by simp)]
  have h := shiftSum_shifted pair 0 row.reverse
  rw [List.length_reverse] at h
  simpa using h

theorem splitRow_eq_digits (w nMems v : ℕ) :
    splitRow w nMems v = (digitsOf (2 ^ w) nMems v).reverse := by
  unfold splitRow memMaskShifts digitsOf
  rw [List.map_reverse, List.map_map]
  congr 1
  apply List.map_congr_left
  intro k _
  show v / 2 ^ (w * k) % 2 ^ w = v / (2 ^ w) ^ k % 2 ^ w
  rw [pow_mul]

theorem recombineRow_reverse (w : ℕ) (D : List ℕ) :
    recombineRow w D.reverse = ofDigits (2 ^ w) D := by
  unfold recombineRow memMaskShifts
  rw [List.length_reverse, shiftSum_reverse D.reverse _ (by simp), List.reverse_reverse]
  have h := shiftSum_shifted w 0 D
  simpa using h

theorem recombine_splitRow (w nMems v : ℕ) (hv : v < (2 ^ w) ^ nMems) :
    recombineRow w (splitRow w nMems v) = v := by
  rw [splitRow_eq_digits, recombineRow_reverse]
  exact ofDigits_digitsOf (2 ^ w) (Nat.pos_pow_of_pos w (by norm_num)) nMems v hv

theorem getD_range_map {α : Type} (d : α) (l : List α) :
    (List.range l.length).map (fun j => l.getD j d) = l := by
  induction l with
  | nil => simp
  | cons a rest ih =>
    rw [List.length_cons, List.range_succ_eq_map, List.map_cons, List.map_map]
    refine congrArg₂ List.cons rfl ?_
    rw [show ((fun j => (a :: rest).getD j d) ∘ Nat.succ) = (fun j => rest.getD j d) from
      funext fun j => rfl]
    exact ih

theorem digitsOf_ofDigits (B : ℕ) (hB : 0 < B) (l : List ℕ) (h : ∀ d ∈ l, d < B) :
    digitsOf B l.length (ofDigits B l) = l := by
  unfold digitsOf
  rw [List.map_congr_left
    (fun m hm => ofDigits_div_pow_mod B hB l h m (List.mem_range.mp hm))]
  exact getD_range_map 0 l

theorem unpackRow_extract (pair n v : ℕ) (msb : Bool) (w : ℕ) (chunks : List ℕ)
    (hrec : recombineRow w chunks = v) :
    unpackRow pair n w msb chunks
      = if msb then (digitsOf (2 ^ pair) n v).reverse else digitsOf (2 ^ pair) n v := by
  unfold unpackRow colBitShifts
  rw [hrec]
  have hmap : ((List.range n).map (fun j => pair * j)).map (fun s => v / 2 ^ s % 2 ^ pair)
      = digitsOf (2 ^ pair) n v := by
    rw [List.map_map]
    apply List.map_congr_left
    intro j _
    show v / 2 ^ (pair * j) % 2 ^ pair = v / (2 ^ pair) ^ j % 2 ^ pair
    rw [pow_mul]
  cases msb with
  | false => simpa using hmap
  | true => simp only [if_true]; rw [List.map_reverse, hmap]

/-- Round trip for a single wide row: splitting the row value into bank
chunks and unpacking them recovers the row, provided the widths are
consistent (`n * nBitsPerSamplePair = nMems * nBitsPerMemRow`). -/
theorem row_roundTrip (pair n nMems w : ℕ) (msb : Bool) (row : List ℕ)
    (hrl : row.length = n) (hbound : ∀ x ∈ row, x < 2 ^ pair)
    (hw : n * pair = nMems * w) :
    unpackRow pair n w msb (splitRow w nMems (iqRowVal pair msb row)) = row := by
  have hpow : (2 ^ pair) ^ n = (2 ^ w) ^ nMems := by
    rw [← pow_mul, ← pow_mul, Nat.mul_comm pair n, hw, Nat.mul_comm nMems w]
  cases msb with
  | false =>
    have hv : iqRowVal pair false row = ofDigits (2 ^ pair) row := iqRowVal_false pair row
    have hvlt : iqRowVal pair false row < (2 ^ w) ^ nMems := by
      rw [hv, ← hpow, ← hrl]
      exact ofDigits_lt (2 ^ pair) row hbound
    rw [unpackRow_extract pair n (iqRowVal pair false row) false w _
      (recombine_splitRow w nMems _ hvlt)]
    simp only [Bool.false_eq_true, if_false]
    rw [hv, ← hrl, digitsOf_ofDigits (2 ^ pair) (Nat.pos_pow_of_pos pair (by norm_num)) row hbound]
  | true =>
    have hv : iqRowVal pair true row = ofDigits (2 ^ pair) row.reverse := iqRowVal_true pair row
    have hvlt : iqRowVal pair true row < (2 ^ w) ^ nMems := by
      rw [hv, ← hpow, ← hrl, ← List.length_reverse]
      exact ofDigits_lt (2 ^ pair) row.reverse (by simpa using hbound)
    rw [unpackRow_extract pair n (iqRowVal pair true row) true w _
      (recombine_splitRow w nMems _ hvlt)]
    simp only [if_true]
    rw [hv, ← hrl, ← List.length_reverse,
      digitsOf_ofDigits (2 ^ pair) (Nat.pos_pow_of_pos pair (by norm_num)) row.reverse
        (by simpa using hbound),
      List.reverse_reverse]

theorem getD_drop {α : Type} (l : List α) (k i : ℕ) (d : α) :
    (l.drop k).getD i d = l.getD (k + i) d := by
  simp [List.getD_eq_getElem?_getD, List.getElem?_drop]

theorem toRows_step {α : Type} (d : α) (n : ℕ) (hn : 0 < n) (m : ℕ) (l : List α)
    (h : l.length = (m + 1) * n) :
    toRows d n l = ((List.range n).map (fun j => l.getD j d)) :: toRows d n (l.drop n) := by
  unfold toRows
  have h1 : l.length / n = m + 1 := by rw [h, Nat.mul_div_cancel _ hn]
  have h2 : (l.drop n).length / n = m := by
    rw [List.length_drop, h, show (m + 1) * n - n = m * n by rw [Nat.succ_mul]; omega,
      Nat.mul_div_cancel _ hn]
  rw [h1, h2, List.range_succ_eq_map, List.map_cons, List.map_map]
  refine congrArg₂ List.cons ?_ ?_
  · apply List.map_congr_left; intro j _
    rw [Nat.zero_mul, Nat.zero_add]
  · apply List.map_congr_left; intro r _
    show (List.range n).map (fun j => l.getD ((r + 1) * n + j) d)
        = (List.range n).map (fun j => (l.drop n).getD (r * n + j) d)
    apply List.map_congr_left; intro j _
    rw [getD_drop, show (r + 1) * n + j = n + (r * n + j) by rw [Nat.succ_mul]; omega]

theorem range_map_getD_take {α : Type} (n : ℕ) (l : List α) (d : α) (hle : n ≤ l.length) :
    (List.range n).map (fun j => l.getD j d) = l.take n := by
  induction l generalizing n with
  | nil =>
    have : n = 0 := by simpa using hle
    simp [this]
  | cons a rest ih =>
    match n with
    | 0 => simp
    | k + 1 =>
      rw [List.range_succ_eq_map, List.map_cons, List.map_map, List.take_succ_cons]
      refine congrArg₂ List.cons rfl ?_
      rw [show ((fun j => (a :: rest).getD j d) ∘ Nat.succ) = (fun j => rest.getD j d) from
        funext fun j => rfl]
      exact ih k (by simpa using hle)

theorem flatten_toRows {α : Type} (d : α) (n : ℕ) (hn : 0 < n) :
    ∀ m (l : List α), l.length = m * n → (toRows d n l).flatten = l := by
  intro m
  induction m with
  | zero =>
    intro l h
    have : l = [] := List.eq_nil_of_length_eq_zero (by simpa using h)
    subst this
    simp [toRows]
  | succ m ih =>
    intro l h
    rw [toRows_step d n hn m l h, List.flatten_cons,
      range_map_getD_take n l d (by rw [h, Nat.succ_mul]; omega),
      ih (l.drop n) (by rw [List.length_drop, h, Nat.succ_mul]; omega)]
    exact List.take_append_drop n l

theorem mem_toRows {α : Type} (d : α) (n : ℕ) (l : List α) {row : List α}
    (hrow : row ∈ toRows d n l) :
    row.length = n ∧ ∀ x ∈ row, x ∈ l ∨ x = d := by
  unfold toRows at hrow
  obtain ⟨r, _, rfl⟩ := List.mem_map.mp hrow
  refine ⟨by simp, ?_⟩
  intro x hx
  obtain ⟨j, _, rfl⟩ := List.mem_map.mp hx
  by_cases hlt : r * n + j < l.length
  · left
    rw [List.getD_eq_getElem l d hlt]
    exact List.getElem_mem hlt
  · right
    exact List.getD_eq_default l d (by omega)

theorem combined_lt (pair a b : ℕ) (ha : a < 2 ^ (pair / 2)) (hb : b < 2 ^ (pair / 2)) :
    a * 2 ^ (pair / 2) + b < 2 ^ pair := by
  have h1 : a * 2 ^ (pair / 2) + b < (a + 1) * 2 ^ (pair / 2) := by
    rw [Nat.succ_mul]; omega
  have h2 : (a + 1) * 2 ^ (pair / 2) ≤ 2 ^ (pair / 2) * 2 ^ (pair / 2) :=
    Nat.mul_le_mul_right _ ha
  have h3 : (2 : ℕ) ^ (pair / 2) * 2 ^ (pair / 2) = 2 ^ (pair / 2 + pair / 2) :=
    (pow_add 2 _ _).symm
  have h4 : (2 : ℕ) ^ (pair / 2 + pair / 2) ≤ 2 ^ pair :=
    Nat.pow_le_pow_right (by norm_num) (by omega)
  omega

theorem combined_div (half a b : ℕ) (hb : b < 2 ^ half) :
    (a * 2 ^ half + b) / 2 ^ half = a := by
  rw [Nat.mul_comm a, Nat.mul_add_div (Nat.pos_pow_of_pos half (by norm_num)),
    Nat.div_eq_of_lt hb, Nat.add_zero]

theorem combined_mod (half a b : ℕ) (hb : b < 2 ^ half) :
    (a * 2 ^ half + b) % 2 ^ half = b := by
  rw [Nat.mul_comm a, Nat.mul_add_mod]
  exact Nat.mod_eq_of_lt hb

/-- C1: round trip of the bit-packing.  For equal-length sample lists whose
entries fit in `nBitsPerSamplePair / 2` bits, with a row size dividing the
sample count and consistent widths
(`nSamplesPerCycle * nBitsPerSamplePair = nMems * nBitsPerMemRow`, the
"matching parameters" of the claim), unpacking the memory image produced
by `formatWaveForMem` reconstructs the original I and Q sequences exactly. -/
theorem formatWaveForMem_roundTrip (iVals qVals : List ℕ) (pair n nMems w : ℕ) (msb : Bool)
    (hlen : iVals.length = qVals.length)
    (hI : ∀ x ∈ iVals, x < 2 ^ (pair / 2))
    (hQ : ∀ x ∈ qVals, x < 2 ^ (pair / 2))
    (hn : 0 < n)
    (hdvd : n ∣ iVals.length)
    (hw : n * pair = nMems * w) :
    unpackMem pair n w msb (formatWaveForMem iVals qVals pair n nMems w msb)
      = (iVals, qVals) := by
  have hiqbound : ∀ x ∈ (iVals.zip qVals).map (fun p => p.1 * 2 ^ (pair / 2) + p.2),
      x < 2 ^ pair := by
    intro x hx
    obtain ⟨⟨a, b⟩, hp, rfl⟩ := List.mem_map.mp hx
    obtain ⟨ha, hb⟩ := List.of_mem_zip hp
    exact combined_lt pair a b (hI a ha) (hQ b hb)
  have hiqlen : ((iVals.zip qVals).map (fun p => p.1 * 2 ^ (pair / 2) + p.2)).length
      = iVals.length := by
    rw [List.length_map, List.length_zip, hlen, Nat.min_self]
  simp only [formatWaveForMem, unpackMem, List.map_map]
  have hrows : ∀ row ∈ toRows 0 n ((iVals.zip qVals).map (fun p => p.1 * 2 ^ (pair / 2) + p.2)),
      ((unpackRow pair n w msb) ∘ (fun row => splitRow w nMems (iqRowVal pair msb row))) row
        = row := by
    intro row hrow
    obtain ⟨hrl, hrm⟩ := mem_toRows 0 n _ hrow
    refine row_roundTrip pair n nMems w msb row hrl ?_ hw
    intro x hx
    rcases hrm x hx with hmem | h0
    · exact hiqbound x hmem
    · rw [h0]; exact Nat.pos_pow_of_pos pair (by norm_num)
  rw [List.map_congr_left hrows, List.map_id',
    flatten_toRows 0 n hn (iVals.length / n) _ (by rw [hiqlen, Nat.div_mul_cancel hdvd])]
  have hfst : ((iVals.zip qVals).map (fun p => p.1 * 2 ^ (pair / 2) + p.2)).map
      (fun iq => (splitIQ (pair / 2) iq).1) = iVals := by
    rw [List.map_map]
    rw [List.map_congr_left (g := fun p : ℕ × ℕ => p.1) ?_]
    · exact List.map_fst_zip iVals qVals (le_of_eq hlen)
    · intro ⟨a, b⟩ hp
      obtain ⟨_, hb⟩ := List.of_mem_zip hp
      exact combined_div (pair / 2) a b (hQ b hb)
  have hsnd : ((iVals.zip qVals).map (fun p => p.1 * 2 ^ (pair / 2) + p.2)).map
      (fun iq => (splitIQ (pair / 2) iq).2) = qVals := by
    rw [List.map_map]
    rw [List.map_congr_left (g := fun p : ℕ × ℕ => p.2) ?_]
    · exact List.map_snd_zip iVals qVals (le_of_eq hlen.symm)
    · intro ⟨a, b⟩ hp
      obtain ⟨_, hb⟩ := List.of_mem_zip hp
      exact combined_mod (pair / 2) a b (hQ b hb)
  rw [hfst, hsnd]

/-- C1 witness: the round-trip theorem applied at the spec's concrete
scenario: `bitsPerSamplePair = 8`, `samplesPerRow = 2`, `numBanks = 2`,
`bitsPerBankRow = 8`, `I = [1, 2]`, `Q = [1, 1]`. -/
theorem formatWaveForMem_roundTrip_witness :
    unpackMem 8 2 8 false (formatWaveForMem [1, 2] [1, 1] 8 2 2 8 false)
      = ([1, 2], [1, 1]) :=
  formatWaveForMem_roundTrip [1, 2] [1, 1] 8 2 2 8 false (by decide)
    (by decide) (by decide) (by decide) (by decide) (by decide)

/-- C2 counterexample: `formatWaveForMem` contains no width-consistency
check and never reports an error.  With inconsistent widths
(`samplesPerRow * bitsPerSamplePair = 1 * 4 ≠ 1 * 2 = numBanks * bitsPerBankRow`)
the call returns an ordinary memory image, and high-order sample bits are
silently dropped: the distinct inputs `I=[3],Q=[3]` and `I=[0],Q=[3]`
produce the same image, whose unpacking returns `([0],[3])`. -/
theorem formatWaveForMem_widthMismatch_silent :
    1 * 4 ≠ 1 * 2 ∧
    formatWaveForMem [3] [3] 4 1 1 2 false = formatWaveForMem [0] [3] 4 1 1 2 false ∧
    unpackMem 4 1 2 false (formatWaveForMem [3] [3] 4 1 1 2 false) = ([0], [3]) := by
  decide

/-- C2 (amended): `formatWaveForMem` performs no width-consistency check
and reports no error; when the widths agree
(`nSamplesPerCycle * nBitsPerSamplePair = nMems * nBitsPerMemRow`) no bits
of any input sample are dropped: every wide row value is recoverable
exactly from the bank values of the produced image. -/
theorem formatWaveForMem_lossless (iVals qVals : List ℕ) (pair n nMems w : ℕ) (msb : Bool)
    (hI : ∀ x ∈ iVals, x < 2 ^ (pair / 2))
    (hQ : ∀ x ∈ qVals, x < 2 ^ (pair / 2))
    (hw : n * pair = nMems * w) :
    (formatWaveForMem iVals qVals pair n nMems w msb).map (recombineRow w)
      = (toRows 0 n ((iVals.zip qVals).map (fun p => p.1 * 2 ^ (pair / 2) + p.2))).map
          (iqRowVal pair msb) := by
  have hiqbound : ∀ x ∈ (iVals.zip qVals).map (fun p => p.1 * 2 ^ (pair / 2) + p.2),
      x < 2 ^ pair := by
    intro x hx
    obtain ⟨⟨a, b⟩, hp, rfl⟩ := List.mem_map.mp hx
    obtain ⟨ha, hb⟩ := List.of_mem_zip hp
    exact combined_lt pair a b (hI a ha) (hQ b hb)
  simp only [formatWaveForMem, List.map_map]
  apply List.map_congr_left
  intro row hrow
  obtain ⟨hrl, hrm⟩ := mem_toRows 0 n _ hrow
  have hbound : ∀ x ∈ row, x < 2 ^ pair := by
    intro x hx
    rcases hrm x hx with hmem | h0
    · exact hiqbound x hmem
    · rw [h0]; exact Nat.pos_pow_of_pos pair (by norm_num)
  have hpow : (2 ^ pair) ^ n = (2 ^ w) ^ nMems := by
    rw [← pow_mul, ← pow_mul, Nat.mul_comm pair n, hw, Nat.mul_comm nMems w]
  show recombineRow w (splitRow w nMems (iqRowVal pair msb row)) = iqRowVal pair msb row
  refine recombine_splitRow w nMems _ ?_
  cases msb with
  | false =>
    rw [iqRowVal_false, ← hpow, ← hrl]
    exact ofDigits_lt (2 ^ pair) row hbound
  | true =>
    rw [iqRowVal_true, ← hpow, ← hrl, ← List.length_reverse]
    exact ofDigits_lt (2 ^ pair) row.reverse (by simpa using hbound)

/-- C2 witness: the losslessness theorem at the spec's concrete scenario. -/
theorem formatWaveForMem_lossless_witness :
    (formatWaveForMem [1, 2] [1, 1] 8 2 2 8 false).map (recombineRow 8)
      = (toRows 0 2 (([1, 2].zip [1, 1]).map (fun p => p.1 * 2 ^ (8 / 2) + p.2))).map
          (iqRowVal 8 false) :=
  formatWaveForMem_lossless [1, 2] [1, 1] 8 2 2 8 false (by decide) (by decide) (by decide)

/-!
### ChannelAllocator: `generateResonatorChannels` (Roach2Controls.py lines 791-836)

Order `'F'` places sequential frequencies into a single stream
(column-major reshape); `'C'` places them into the same channel number
(row-major reshape).  An invalid order string is coerced to the default
`'F'` before this stage, and `'A'` reshapes a C-contiguous array like
`'C'`, so the embedding models the two orders of the claims.
-/

theorem getD_range_map_lt {α : Type} (f : ℕ → α) (n r : ℕ) (hr : r < n) (d : α) :
    ((List.range n).map f).getD r d = f r := by
  rw [List.getD_eq_getElem _ d (by simpa using hr)]
  simp

theorem sum_map_add {ι : Type} (l : List ι) (f g : ι → ℕ) :
    (l.map (fun i => f i + g i)).sum = (l.map f).sum + (l.map g).sum := by
  induction l with
  | nil => simp
  | cons a l ih => simp only [List.map_cons, List.sum_cons, ih]; omega

theorem sum_ite_eq_countP {ι : Type} (q : ι → Bool) (l : List ι) :
    (l.map (fun i => if q i then 1 else 0)).sum = l.countP q := by
  induction l with
  | nil => simp
  | cons a l ih =>
    rw [List.map_cons, List.sum_cons, List.countP_cons, ih]
    omega

theorem countP_getD_range {α : Type} (p : α → Bool) (d : α) (col : List α) :
    ((List.range col.length).map (fun r => if p (col.getD r d) then 1 else 0)).sum
      = col.countP p := by
  rw [sum_ite_eq_countP]
  conv_rhs => rw [← getD_range_map d col]
  rw [List.countP_map]
  rfl

theorem countP_transposeLike {α : Type} (p : α → Bool) (d : α) (m : ℕ) :
    ∀ cols : List (List α), (∀ col ∈ cols, col.length = m) →
      ((List.range m).map (fun r => (cols.map (fun col => col.getD r d)).countP p)).sum
        = (cols.map (fun col => col.countP p)).sum := by
  intro cols
  induction cols with
  | nil => simp
  | cons col cols ih =>
    intro h
    have hcol : col.length = m := h col (List.mem_cons_self col cols)
    have hrest := ih (fun c hc => h c (List.mem_cons_of_mem col hc))
    have hstep : ∀ r, ((col :: cols).map (fun c => c.getD r d)).countP p
        = (if p (col.getD r d) then 1 else 0) + (cols.map (fun c => c.getD r d)).countP p := by
      intro r
      rw [List.map_cons, List.countP_cons]
      omega
    rw [List.map_congr_left (fun r _ => hstep r), sum_map_add, hrest, List.map_cons,
      List.sum_cons]
    subst hcol
    rw [countP_getD_range]

theorem reshapeF_row_eq {α : Type} (d : α) (s m : ℕ) (l : List α) (hlen : l.length = m * s)
    (hm : 0 < m) (r : ℕ) (hr : r < m) :
    (List.range s).map (fun c => l.getD (c * m + r) d)
      = (toRows d m l).map (fun col => col.getD r d) := by
  unfold toRows
  rw [hlen, Nat.mul_div_cancel_left s hm, List.map_map]
  apply List.map_congr_left
  intro c _
  exact (getD_range_map_lt (fun j => l.getD (c * m + j) d) m r hr d).symm

theorem flatten_reshapeF_length {α : Type} (d : α) (s : ℕ) (l : List α)
    (hdvd : s ∣ l.length) :
    (reshapeF d s l).flatten.length = l.length := by
  rw [List.length_flatten]
  unfold reshapeF
  rw [List.map_map]
  have h1 : ((fun row : List α => row.length) ∘
      fun r => (List.range s).map (fun c => l.getD (c * (l.length / s) + r) d))
      = fun _ => s := by
    funext r
    simp [Function.comp]
  rw [h1, List.map_const', List.length_range, List.sum_replicate, smul_eq_mul,
    Nat.div_mul_cancel hdvd]

theorem countP_flatten_reshapeF {α : Type} (p : α → Bool) (d : α) (s : ℕ) (l : List α)
    (hs : 0 < s) (hdvd : s ∣ l.length) :
    (reshapeF d s l).flatten.countP p = l.countP p := by
  by_cases hm : l.length / s = 0
  · have hlen0 : l.length = 0 := by
      obtain ⟨k, hk⟩ := hdvd
      rw [hk, Nat.mul_div_cancel_left k hs] at hm
      rw [hk, hm, Nat.mul_zero]
    have : l = [] := List.eq_nil_of_length_eq_zero hlen0
    subst this
    simp [reshapeF]
  · have hm0 : 0 < l.length / s := Nat.pos_of_ne_zero hm
    have hlen : l.length = (l.length / s) * s := (Nat.div_mul_cancel hdvd).symm
    rw [List.countP_flatten]
    unfold reshapeF
    rw [List.map_map]
    have hcombined : ((List.countP p) ∘
        fun r => (List.range s).map (fun c => l.getD (c * (l.length / s) + r) d))
        = fun r => ((List.range s).map (fun c => l.getD (c * (l.length / s) + r) d)).countP p :=
      rfl
    rw [hcombined]
    have hrows : ∀ r ∈ List.range (l.length / s),
        ((List.range s).map (fun c => l.getD (c * (l.length / s) + r) d)).countP p
          = ((toRows d (l.length / s) l).map (fun col => col.getD r d)).countP p := by
      intro r hr
      rw [reshapeF_row_eq d s (l.length / s) l hlen hm0 r (List.mem_range.mp hr)]
    rw [List.map_congr_left hrows,
      countP_transposeLike p d (l.length / s) (toRows d (l.length / s) l)
        (fun col hc => (mem_toRows d (l.length / s) l hc).1),
      ← List.countP_flatten,
      flatten_toRows d (l.length / s) hm0 s l (hlen.trans (Nat.mul_comm _ _))]

theorem countP_insertIdx {α : Type} (p : α → Bool) (a : α) :
    ∀ (n : ℕ) (l : List α), n ≤ l.length →
      (l.insertIdx n a).countP p = l.countP p + if p a then 1 else 0 := by
  intro n
  induction n with
  | zero => intro l _; rw [List.insertIdx_zero, List.countP_cons]
  | succ k ih =>
    intro l hl
    match l with
    | [] => simp at hl
    | b :: l =>
      rw [List.insertIdx_succ_cons, List.countP_cons, List.countP_cons,
        ih l (by simpa using hl)]
      omega

theorem insertPadsF_step (nStreams k : ℕ) (freqs : List ℚ) :
    insertPadsF nStreams (k + 1) freqs
      = (insertPadsF nStreams k freqs).insertIdx
          ((insertPadsF nStreams k freqs).length
            - k * ceilDiv (insertPadsF nStreams k freqs).length nStreams) freqPadValue := by
  unfold insertPadsF
  rw [List.range_succ, List.foldl_append, List.foldl_cons, List.foldl_nil]

theorem insertPadsF_length_countP (nStreams : ℕ) (p : ℚ → Bool) :
    ∀ (padCnt : ℕ) (freqs : List ℚ),
      (insertPadsF nStreams padCnt freqs).length = freqs.length + padCnt ∧
      (insertPadsF nStreams padCnt freqs).countP p
        = freqs.countP p + padCnt * (if p freqPadValue then 1 else 0) := by
  intro padCnt
  induction padCnt with
  | zero => intro freqs; simp [insertPadsF]
  | succ k ih =>
    intro freqs
    obtain ⟨ihlen, ihcnt⟩ := ih freqs
    have hle : (insertPadsF nStreams k freqs).length
          - k * ceilDiv (insertPadsF nStreams k freqs).length nStreams
        ≤ (insertPadsF nStreams k freqs).length := Nat.sub_le _ _
    constructor
    · rw [insertPadsF_step, List.length_insertIdx _ _ hle, ihlen]
      omega
    · rw [insertPadsF_step, countP_insertIdx p freqPadValue _ _ hle, ihcnt, Nat.succ_mul]
      omega

theorem countP_replicate {α : Type} (p : α → Bool) (a : α) (n : ℕ) :
    (List.replicate n a).countP p = n * (if p a then 1 else 0) := by
  induction n with
  | zero => simp
  | succ k ih =>
    rw [List.replicate_succ, List.countP_cons, ih, Nat.succ_mul]

theorem padFreqs_length_countP (nStreams : ℕ) (order : PackOrder) (p : ℚ → Bool)
    (freqs : List ℚ) :
    (padFreqs nStreams order freqs).length = freqs.length + padNum nStreams freqs.length ∧
    (padFreqs nStreams order freqs).countP p
      = freqs.countP p + padNum nStreams freqs.length * (if p freqPadValue then 1 else 0) := by
  cases order with
  | F => exact insertPadsF_length_countP nStreams p _ freqs
  | C =>
    constructor
    · rw [padFreqs, List.length_append, List.length_replicate]
    · rw [padFreqs, List.countP_append, countP_replicate]

theorem padNum_makes_multiple (nStreams len0 : ℕ) (h : 0 < nStreams) :
    (len0 + padNum nStreams len0) % nStreams = 0 := by
  have hr : len0 % nStreams < nStreams := Nat.mod_lt _ h
  rcases Nat.eq_zero_or_pos (len0 % nStreams) with h0 | hpos
  · unfold padNum
    rw [h0, Nat.sub_zero, Nat.mod_self, Nat.add_zero]
    exact h0
  · unfold padNum
    have h1 : nStreams - len0 % nStreams < nStreams := by omega
    rw [Nat.mod_eq_of_lt h1, Nat.add_mod, Nat.mod_eq_of_lt h1]
    have h2 : len0 % nStreams + (nStreams - len0 % nStreams) = nStreams := by omega
    rw [h2, Nat.mod_self]

/-- C3: for every frequency list of length at most `nChannels` holding
only non-negative frequencies, and for each packing order, the grid built
by `generateResonatorChannels` flattens to a length that is a multiple of
the stream count, its non-pad entries number exactly `len(freqList)`, and
its pad entries number
`padNum = (nStreams - len(freqList) % nStreams) % nStreams`. -/
theorem generateResonatorChannels_counts (nChannels nChannelsPerStream : ℕ)
    (order : PackOrder) (freqList : List ℚ)
    (hcap : freqList.length ≤ nChannels)
    (hpos : ∀ f ∈ freqList, 0 ≤ f)
    (hs : 0 < nChannels / nChannelsPerStream) :
    (generateResonatorChannels nChannels nChannelsPerStream order freqList).flatten.length
        % (nChannels / nChannelsPerStream) = 0
    ∧ (generateResonatorChannels nChannels nChannelsPerStream order freqList).flatten.countP
        (fun x => x ≠ freqPadValue) = freqList.length
    ∧ (generateResonatorChannels nChannels nChannelsPerStream order freqList).flatten.countP
        (fun x => x = freqPadValue)
      = padNum (nChannels / nChannelsPerStream) freqList.length := by
  have htake : freqList.take nChannels = freqList := List.take_of_length_le hcap
  obtain ⟨hplen, _⟩ := padFreqs_length_countP (nChannels / nChannelsPerStream) order
    (fun _ => true) freqList
  have hmod : (padFreqs (nChannels / nChannelsPerStream) order freqList).length
      % (nChannels / nChannelsPerStream) = 0 := by
    rw [hplen]
    exact padNum_makes_multiple _ freqList.length hs
  have hdvd : (nChannels / nChannelsPerStream)
      ∣ (padFreqs (nChannels / nChannelsPerStream) order freqList).length :=
    Nat.dvd_of_mod_eq_zero hmod
  have hlen : (generateResonatorChannels nChannels nChannelsPerStream order freqList).flatten.length
      = (padFreqs (nChannels / nChannelsPerStream) order freqList).length := by
    cases order with
    | F =>
      show (reshapeF freqPadValue (nChannels / nChannelsPerStream)
        (padFreqs (nChannels / nChannelsPerStream) PackOrder.F
          (freqList.take nChannels))).flatten.length = _
      rw [htake]
      exact flatten_reshapeF_length freqPadValue _ _ hdvd
    | C =>
      show (toRows freqPadValue (nChannels / nChannelsPerStream)
        (padFreqs (nChannels / nChannelsPerStream) PackOrder.C
          (freqList.take nChannels))).flatten.length = _
      rw [htake, flatten_toRows freqPadValue _ hs _ _ (Nat.div_mul_cancel hdvd).symm]
  have hcnt : ∀ p : ℚ → Bool,
      (generateResonatorChannels nChannels nChannelsPerStream order freqList).flatten.countP p
        = (padFreqs (nChannels / nChannelsPerStream) order freqList).countP p := by
    intro p
    cases order with
    | F =>
      show (reshapeF freqPadValue (nChannels / nChannelsPerStream)
        (padFreqs (nChannels / nChannelsPerStream) PackOrder.F
          (freqList.take nChannels))).flatten.countP p = _
      rw [htake]
      exact countP_flatten_reshapeF p freqPadValue _ _ hs hdvd
    | C =>
      show (toRows freqPadValue (nChannels / nChannelsPerStream)
        (padFreqs (nChannels / nChannelsPerStream) PackOrder.C
          (freqList.take nChannels))).flatten.countP p = _
      rw [htake, flatten_toRows freqPadValue _ hs _ _ (Nat.div_mul_cancel hdvd).symm]
  have hne : ∀ f ∈ freqList, f ≠ freqPadValue := by
    intro f hf heq
    have := hpos f hf
    rw [heq] at this
    norm_num [freqPadValue] at this
  refine ⟨?_, ?_, ?_⟩
  · rw [hlen]
    exact hmod
  · rw [hcnt]
    obtain ⟨_, hc⟩ := padFreqs_length_countP (nChannels / nChannelsPerStream) order
      (fun x => x ≠ freqPadValue) freqList
    rw [hc, show (if (fun x : ℚ => decide (x ≠ freqPadValue)) freqPadValue then 1 else 0) = 0
        by simp,
      Nat.mul_zero, Nat.add_zero]
    exact List.countP_eq_length.mpr (fun a ha => by simpa using hne a ha)
  · rw [hcnt]
    obtain ⟨_, hc⟩ := padFreqs_length_countP (nChannels / nChannelsPerStream) order
      (fun x => x = freqPadValue) freqList
    rw [hc, show (if (fun x : ℚ => decide (x = freqPadValue)) freqPadValue then 1 else 0) = 1
        by simp,
      Nat.mul_one,
      show (freqList.countP fun x => x = freqPadValue) = 0 from
        List.countP_eq_zero.mpr (fun a ha => by simpa using hne a ha),
      Nat.zero_add]

/-! ### C6: placement of the pad slots -/

theorem padArith (nS L : ℕ) (hnS : 0 < nS) (hP : 0 < padNum nS L) :
    1 ≤ ceilDiv L nS
    ∧ L + padNum nS L = ceilDiv L nS * nS
    ∧ padNum nS L ≤ nS
    ∧ padNum nS L * (ceilDiv L nS - 1) ≤ L
    ∧ ∀ i, 0 < i → i < padNum nS L → ceilDiv (L + i) nS = ceilDiv L nS := by
  have hqr := Nat.div_add_mod L nS
  have hrlt : L % nS < nS := Nat.mod_lt _ hnS
  have hr0 : 0 < L % nS := by
    by_contra h0
    have hz : L % nS = 0 := by omega
    rw [padNum, hz, Nat.sub_zero, Nat.mod_self] at hP
    exact absurd hP (lt_irrefl 0)
  have hPval : padNum nS L = nS - L % nS := by
    rw [padNum]
    exact Nat.mod_eq_of_lt (by omega)
  have hceil : ceilDiv L nS = L / nS + 1 := by
    have h1 : L + nS - 1 = (L % nS - 1) + nS * (L / nS + 1) := by
      rw [Nat.mul_succ]; omega
    unfold ceilDiv
    rw [h1, Nat.add_mul_div_left _ _ hnS, Nat.div_eq_of_lt (by omega), Nat.zero_add]
  refine ⟨by rw [hceil]; exact Nat.le_add_left 1 _, ?_, by omega, ?_, ?_⟩
  · rw [hPval, hceil, Nat.succ_mul]
    have h2 : L / nS * nS = nS * (L / nS) := Nat.mul_comm _ _
    omega
  · rw [hPval, hceil]
    simp only [Nat.add_sub_cancel]
    have h2 : (nS - L % nS) * (L / nS) ≤ nS * (L / nS) :=
      Nat.mul_le_mul_right _ (by omega)
    have h3 : nS * (L / nS) = L / nS * nS := Nat.mul_comm _ _
    omega
  · intro i hi0 hiP
    rw [hPval] at hiP
    have h1 : L + i + nS - 1 = (L % nS + i - 1) + nS * (L / nS + 1) := by
      rw [Nat.mul_succ]; omega
    rw [hceil]
    unfold ceilDiv
    rw [h1, Nat.add_mul_div_left _ _ hnS, Nat.div_eq_of_lt (by omega), Nat.zero_add]

theorem insertIdx_boundary {α : Type} (A B : List α) (x : α) :
    (A ++ B).insertIdx A.length x = A ++ x :: B := by
  induction A with
  | nil => rw [List.nil_append, List.length_nil, List.insertIdx_zero, List.nil_append]
  | cons a A ih =>
    rw [List.cons_append, List.length_cons, List.insertIdx_succ_cons, ih, List.cons_append]

theorem insertPadsF_invariant (nS : ℕ) (hnS : 0 < nS) (freqs : List ℚ)
    (hP : 0 < padNum nS freqs.length) :
    ∀ i, i ≤ padNum nS freqs.length →
      insertPadsF nS i freqs
        = freqs.take (freqs.length - i * (ceilDiv freqs.length nS - 1))
          ++ ((List.range i).map (fun j =>
              padSeg nS freqs (padNum nS freqs.length - i + j) ++ [freqPadValue])).flatten := by
  obtain ⟨hc1, hsum, hPle, hPmul, hceil⟩ := padArith nS freqs.length hnS hP
  intro i
  induction i with
  | zero =>
    intro _
    simp [insertPadsF]
  | succ i ih =>
    intro hi1
    have hiP : i < padNum nS freqs.length := hi1
    have hIH := ih (le_of_lt hiP)
    obtain ⟨hleni, _⟩ := insertPadsF_length_countP nS (fun _ => true) i freqs
    have hic : i * ceilDiv (freqs.length + i) nS = i * (ceilDiv freqs.length nS - 1) + i := by
      rcases Nat.eq_zero_or_pos i with h0 | hipos
      · subst h0; simp
      · rw [hceil i hipos hiP]
        have h5 : i * ((ceilDiv freqs.length nS - 1) + 1)
            = i * (ceilDiv freqs.length nS - 1) + i := Nat.mul_succ _ _
        rw [← h5]
        congr 1
        omega
    have hind : (insertPadsF nS i freqs).length
          - i * ceilDiv (insertPadsF nS i freqs).length nS
        = freqs.length - i * (ceilDiv freqs.length nS - 1) := by
      rw [hleni, hic]
      omega
    rw [insertPadsF_step, hind, hIH]
    have hAlen : (freqs.take (freqs.length - i * (ceilDiv freqs.length nS - 1))).length
        = freqs.length - i * (ceilDiv freqs.length nS - 1) := by
      rw [List.length_take]
      omega
    have hsplit := insertIdx_boundary
      (freqs.take (freqs.length - i * (ceilDiv freqs.length nS - 1)))
      (((List.range i).map (fun j =>
        padSeg nS freqs (padNum nS freqs.length - i + j) ++ [freqPadValue])).flatten)
      freqPadValue
    rw [hAlen] at hsplit
    rw [hsplit]
    have hmul1 : (i + 1) * (ceilDiv freqs.length nS - 1)
        ≤ padNum nS freqs.length * (ceilDiv freqs.length nS - 1) :=
      Nat.mul_le_mul_right _ (by omega)
    have hmul2 : (i + 1) * (ceilDiv freqs.length nS - 1)
        = i * (ceilDiv freqs.length nS - 1) + (ceilDiv freqs.length nS - 1) :=
      Nat.succ_mul _ _
    have htk : freqs.take (freqs.length - i * (ceilDiv freqs.length nS - 1))
        = freqs.take (freqs.length - (i + 1) * (ceilDiv freqs.length nS - 1))
          ++ padSeg nS freqs (padNum nS freqs.length - 1 - i) := by
      have h2 : freqs.length - i * (ceilDiv freqs.length nS - 1)
          = (freqs.length - (i + 1) * (ceilDiv freqs.length nS - 1))
            + (ceilDiv freqs.length nS - 1) := by
        omega
      rw [h2, List.take_add]
      refine congrArg₂ List.append rfl ?_
      unfold padSeg
      rw [List.drop_drop]
      have h4 : (padNum nS freqs.length - 1 - i) * (ceilDiv freqs.length nS - 1)
          = padNum nS freqs.length * (ceilDiv freqs.length nS - 1)
            - (i + 1) * (ceilDiv freqs.length nS - 1) := by
        rw [← Nat.sub_mul]
        refine congrArg₂ Nat.mul ?_ rfl
        omega
      refine congrArg₂ List.take rfl (congrArg₂ List.drop ?_ rfl)
      omega
    have htail : ((List.range (i + 1)).map (fun j =>
          padSeg nS freqs (padNum nS freqs.length - (i + 1) + j) ++ [freqPadValue])).flatten
        = (padSeg nS freqs (padNum nS freqs.length - 1 - i) ++ [freqPadValue])
          ++ ((List.range i).map (fun j =>
              padSeg nS freqs (padNum nS freqs.length - i + j) ++ [freqPadValue])).flatten := by
      rw [List.range_succ_eq_map, List.map_cons, List.flatten_cons, List.map_map]
      refine congrArg₂ List.append ?_ (congrArg List.flatten (List.map_congr_left ?_))
      · show padSeg nS freqs (padNum nS freqs.length - (i + 1) + 0) ++ [freqPadValue] = _
        rw [show padNum nS freqs.length - (i + 1) + 0
            = padNum nS freqs.length - 1 - i from by omega]
      · intro j hj
        show padSeg nS freqs (padNum nS freqs.length - (i + 1) + (j + 1)) ++ [freqPadValue]
            = padSeg nS freqs (padNum nS freqs.length - i + j) ++ [freqPadValue]
        rw [show padNum nS freqs.length - (i + 1) + (j + 1)
            = padNum nS freqs.length - i + j from by omega]
    rw [htk, htail]
    simp [List.append_assoc]

/-- C6: placement of the pad slots in the 1-D padded sequence before
reshaping.  Order `'F'` inserts the pad value at index
`len - i*ceil(len/streamCount)` (evaluated on the growing list, as the
allocator computes it) for `i` in `0..padCount`; the net effect, proved
here, is that the original frequencies are split into `padCount` runs of
`ceil(len/streamCount) - 1` trailing frequencies, each followed by one
pad, after an unpadded prefix — an approximately even spread.  For
`ROW_MAJOR`/other order all `padCount` pads are appended at the end. -/
theorem padFreqs_placement (nS : ℕ) (hnS : 0 < nS) (freqs : List ℚ) :
    padFreqs nS PackOrder.F freqs
      = freqs.take
          (freqs.length - padNum nS freqs.length * (ceilDiv freqs.length nS - 1))
        ++ ((List.range (padNum nS freqs.length)).map (fun j =>
            padSeg nS freqs j ++ [freqPadValue])).flatten
    ∧ padFreqs nS PackOrder.C freqs
      = freqs ++ List.replicate (padNum nS freqs.length) freqPadValue := by
  constructor
  · show insertPadsF nS (padNum nS freqs.length) freqs = _
    rcases Nat.eq_zero_or_pos (padNum nS freqs.length) with h0 | hP
    · rw [h0]
      simp [insertPadsF]
    · rw [insertPadsF_invariant nS hnS freqs hP (padNum nS freqs.length) (le_refl _)]
      refine congrArg₂ List.append rfl (congrArg List.flatten (List.map_congr_left ?_))
      intro j hj
      rw [show padNum nS freqs.length - padNum nS freqs.length + j = j from by omega]
  · rfl

/-- C6 witness: the placement theorem at `nStreams = 4`,
`freqs = [1,2,3,4,5]` (3 pads, spread as `[1,2,3,-1,4,-1,5,-1]`). -/
theorem padFreqs_placement_witness :
    (padFreqs 4 PackOrder.F [1, 2, 3, 4, 5]
      = ([1, 2, 3, 4, 5] : List ℚ).take
          (([1, 2, 3, 4, 5] : List ℚ).length
            - padNum 4 ([1, 2, 3, 4, 5] : List ℚ).length
              * (ceilDiv ([1, 2, 3, 4, 5] : List ℚ).length 4 - 1))
        ++ ((List.range (padNum 4 ([1, 2, 3, 4, 5] : List ℚ).length)).map (fun j =>
            padSeg 4 [1, 2, 3, 4, 5] j ++ [freqPadValue])).flatten
    ∧ padFreqs 4 PackOrder.C [1, 2, 3, 4, 5]
      = ([1, 2, 3, 4, 5] : List ℚ)
        ++ List.replicate (padNum 4 ([1, 2, 3, 4, 5] : List ℚ).length) freqPadValue) :=
  padFreqs_placement 4 (by decide) [1, 2, 3, 4, 5]

/-- C3 witness: the counting theorem at the spec's concrete scenario
`allocate([100,200,300])` with 4 streams (8 channels, 2 per stream). -/
theorem generateResonatorChannels_counts_witness :
    (generateResonatorChannels 8 2 PackOrder.F [100, 200, 300]).flatten.length % (8 / 2 : ℕ) = 0
    ∧ (generateResonatorChannels 8 2 PackOrder.F [100, 200, 300]).flatten.countP
        (fun x => x ≠ freqPadValue) = ([100, 200, 300] : List ℚ).length
    ∧ (generateResonatorChannels 8 2 PackOrder.F [100, 200, 300]).flatten.countP
        (fun x => x = freqPadValue) = padNum (8 / 2) ([100, 200, 300] : List ℚ).length :=
  generateResonatorChannels_counts 8 2 PackOrder.F [100, 200, 300]
    (by decide) (by decide) (by decide)

/-!
### SpectralBinMapper: `generateFftChanSelection` (Roach2Controls.py lines 840-881)
-/

/-- C4 counterexample: the full bin mapping is not invariant under
aliasing by one sample rate, because the pad override keys on the sign of
the source frequency: with `LO = 0`, `sampleRate = 2` and `f = 1 <
sampleRate`, `mapBins [[1]] = [[1]]` but `mapBins [[1 - 2]] = [[0]]` (the
negative aliased input is treated as a pad cell). -/
theorem generateFftChanSelection_alias_ctrex :
    (1 : ℚ) < 2
    ∧ generateFftChanSelection ⟨0, 2, 1, 2, 2⟩ [[1]] = [[1]]
    ∧ generateFftChanSelection ⟨0, 2, 1, 2, 2⟩ [[1 - 2]] = [[0]]
    ∧ ([[1]] : List (List ℤ)) ≠ [[0]] := by
  refine ⟨by norm_num, ?_, ?_, by decide⟩
  · show [[fftBinOrPad ⟨0, 2, 1, 2, 2⟩ 1]] = [[1]]
    norm_num [fftBinOrPad, fftBinIndex, dacQuantizedFreq, aliasDac, dacFreqResolution, npRound]
  · show [[fftBinOrPad ⟨0, 2, 1, 2, 2⟩ (1 - 2)]] = [[0]]
    norm_num [fftBinOrPad, fftBinPadValue]

/-- C4 (amended): the computed (pre-pad-override) bin index is invariant
under aliasing by one sample rate: for `LO ≤ f < sampleRate + LO` the
aliased down-converted frequencies of `f` and `f - sampleRate` coincide,
so `fftBinIndex` agrees on both.  The full `generateFftChanSelection`
output differs only through the pad-sentinel override on negative inputs
(see the counterexample). -/
theorem fftBinIndex_alias_invariant (P : FftParams) (f : ℚ)
    (h1 : P.LOFreq ≤ f) (h2 : f < P.dacSampleRate + P.LOFreq) :
    fftBinIndex P f = fftBinIndex P (f - P.dacSampleRate) := by
  have halias : aliasDac P f = aliasDac P (f - P.dacSampleRate) := by
    unfold aliasDac
    rw [if_neg (by push_neg; linarith), if_pos (by linarith)]
    ring
  unfold fftBinIndex dacQuantizedFreq
  rw [halias]

/-- C4 witness: the amended invariance at `LO = 0`, `sampleRate = 2`,
`f = 1`. -/
theorem fftBinIndex_alias_invariant_witness :
    fftBinIndex ⟨0, 2, 1, 2, 2⟩ 1 = fftBinIndex ⟨0, 2, 1, 2, 2⟩ (1 - 2) :=
  fftBinIndex_alias_invariant ⟨0, 2, 1, 2, 2⟩ 1 (by decide) (by norm_num)

theorem npRound_nonneg (q : ℚ) (h : 0 ≤ q) : 0 ≤ npRound q := by
  unfold npRound
  have h0 : 0 ≤ ⌊q⌋ := Int.floor_nonneg.mpr h
  split_ifs <;> omega

/-- C5 counterexample: the returned bin indices are not always
non-negative.  With `LO = 16`, `sampleRate = 4` and the legitimate
non-pad frequency `f = 0`, the single aliasing step leaves the
down-converted frequency negative and the computed bin index is `-12`. -/
theorem generateFftChanSelection_negative_bin :
    generateFftChanSelection ⟨16, 4, 1, 4, 4⟩ [[0]] = [[-12]]
    ∧ ¬ (0 ≤ (-12 : ℤ)) := by
  refine ⟨?_, by decide⟩
  show [[fftBinOrPad ⟨16, 4, 1, 4, 4⟩ 0]] = [[-12]]
  norm_num [fftBinOrPad, fftBinIndex, dacQuantizedFreq, aliasDac, dacFreqResolution, npRound]

/-- C5 (amended): each non-pad cell's bin index is computed as
`round(quantizedFreq / (sampleRate / totalBins))`, every pad-sentinel
(`-1`) cell is overridden to bin 0, and all returned bin indices are
non-negative provided every non-pad frequency lies at least at
`LO - sampleRate` (so that single aliasing yields a non-negative DAC
frequency; without this the code returns negative bins, see the
counterexample). -/
theorem generateFftChanSelection_spec (P : FftParams) (grid : List (List ℚ))
    (hsr : 0 < P.dacSampleRate)
    (hq : 0 < (P.nDacSamplesPerCycle : ℚ) * (P.nLutRowsToUse : ℚ))
    (hbins : 0 < (P.nFftBins : ℚ))
    (hlo : ∀ row ∈ grid, ∀ f ∈ row, 0 ≤ f → P.LOFreq - P.dacSampleRate ≤ f) :
    fftBinOrPad P freqPadValue = 0
    ∧ (∀ f : ℚ, 0 ≤ f →
        fftBinOrPad P f
          = npRound (dacQuantizedFreq P f / (P.dacSampleRate / (P.nFftBins : ℚ))))
    ∧ ∀ row ∈ generateFftChanSelection P grid, ∀ b ∈ row, 0 ≤ b := by
  refine ⟨?_, ?_, ?_⟩
  · rw [fftBinOrPad, if_pos (by norm_num [freqPadValue])]
    rfl
  · intro f hf
    rw [fftBinOrPad, if_neg (by push_neg; exact hf)]
    rfl
  · intro row hrow b hb
    obtain ⟨frow, hfrow, rfl⟩ := List.mem_map.mp hrow
    obtain ⟨f, hf, rfl⟩ := List.mem_map.mp hb
    unfold fftBinOrPad
    split_ifs with hneg
    · exact le_refl 0
    · push_neg at hneg
      have hfa : 0 ≤ aliasDac P f := by
        have hflo : P.LOFreq - P.dacSampleRate ≤ f := hlo frow hfrow f hf hneg
        unfold aliasDac
        split_ifs with hcase
        · linarith
        · push_neg at hcase
          linarith
      have hres : 0 < dacFreqResolution P := div_pos hsr hq
      have hquant : 0 ≤ dacQuantizedFreq P f := by
        unfold dacQuantizedFreq
        have : 0 ≤ npRound (aliasDac P f / dacFreqResolution P) :=
          npRound_nonneg _ (div_nonneg hfa (le_of_lt hres))
        positivity
      exact npRound_nonneg _ (div_nonneg hquant (le_of_lt (div_pos hsr hbins)))

/-- C5 witness: the amended theorem at `LO = 0`, `sampleRate = 2` on the
grid `[[1, -1]]`. -/
theorem generateFftChanSelection_spec_witness :
    fftBinOrPad ⟨0, 2, 1, 2, 2⟩ freqPadValue = 0
    ∧ (∀ f : ℚ, 0 ≤ f →
        fftBinOrPad ⟨0, 2, 1, 2, 2⟩ f
          = npRound (dacQuantizedFreq ⟨0, 2, 1, 2, 2⟩ f / ((2 : ℚ) / ((2 : ℕ) : ℚ))))
    ∧ ∀ row ∈ generateFftChanSelection ⟨0, 2, 1, 2, 2⟩ [[1, -1]], ∀ b ∈ row, 0 ≤ b :=
  generateFftChanSelection_spec ⟨0, 2, 1, 2, 2⟩ [[1, -1]] (by decide)
    (mul_pos (by decide) (by decide)) (by decide)
    (by intro row hrow f hf hf0; norm_num; exact le_trans (by norm_num) hf0)

/-!
### CombBuilder: `generateDacComb` (Roach2Controls.py lines 605-737)

The embedding covers the input interpretation, validation and
session-state updates of `generateDacComb` up to and including the
check that the LO frequency has been set (lines 625-664): this prefix
decides the claims about error behaviour and state atomicity.  The
continuation (per-tone amplitudes `maxAmp*10^(-(a-g)/20)`, tone
synthesis, summation and the dynamic-range check) involves
transcendental arithmetic on the waveform values and does not touch the
session attributes `freqList`/`attenList` again.
-/

theorem dacFl_some (nChannels : ℕ) (st : DacState) (freqList : List ℚ)
    (hcap : freqList.length ≤ nChannels) :
    dacFl nChannels st (some freqList) = freqList := by
  unfold dacFl truncList
  rw [Option.getD_some, if_neg (by omega)]

theorem dacRa_some (nChannels : ℕ) (st : DacState) (freqListArg : Option (List ℚ))
    (resAttenList : List ℚ) (hcap : resAttenList.length ≤ nChannels) :
    dacRa nChannels st freqListArg (some resAttenList) = resAttenList := by
  unfold dacRa truncList
  rw [Option.getD_some, if_neg (by omega)]

/-- C7: `generateDacComb` fails with the attenuation-infeasibility error
whenever some per-resonator attenuation is strictly less than the global
attenuation, for every frequency and attenuation list of matching length
(within the channel capacity, per the data-model invariant); the session
state is left untouched and no comb is produced. -/
theorem generateDacComb_attenInfeasible (nChannels : ℕ) (dacSampleRate : ℚ)
    (st : DacState) (freqList resAttenList : List ℚ) (globalDacAtten : ℚ)
    (phaseListArg : Option (List ℚ))
    (hlen : freqList.length = resAttenList.length)
    (hcap : freqList.length ≤ nChannels)
    (hph : phaseLenMismatch phaseListArg freqList.length = false)
    (hinf : ∃ a ∈ resAttenList, a < globalDacAtten) :
    generateDacCombCheck nChannels dacSampleRate st (some freqList) (some resAttenList)
        globalDacAtten phaseListArg
      = (st, Except.error DacCombError.attenuationInfeasible) := by
  have hfl := dacFl_some nChannels st freqList hcap
  have hra := dacRa_some nChannels st (some freqList) resAttenList (hlen ▸ hcap)
  unfold generateDacCombCheck
  rw [hfl, hra, if_neg (by rw [hlen]; exact fun h => h rfl), hph,
    if_neg (by simp), if_pos ?_]
  obtain ⟨a, ha, halt⟩ := hinf
  exact List.any_eq_true.mpr ⟨a, ha, by simpa using halt⟩

/-- C7 witness: the claim's own instance `resAttenList = [5]`,
`globalAtten = 10` (with one resonator frequency and default capacity
1024). -/
theorem generateDacComb_attenInfeasible_witness :
    generateDacCombCheck 1024 2000000000 ⟨[], [], none⟩ (some [100]) (some [5]) 10 none
      = (⟨[], [], none⟩, Except.error DacCombError.attenuationInfeasible) :=
  generateDacComb_attenInfeasible 1024 2000000000 ⟨[], [], none⟩ [100] [5] 10 none
    (by decide) (by decide) (by decide) ⟨5, by decide, by decide⟩

/-- C10: `generateDacComb` is not atomic on failure.  When the LO
frequency has not been set, the call raises only after the session
attributes have been overwritten with the (possibly truncated) inputs of
the failing call, so a subsequent parameterless re-invocation reads the
new lists: the effective frequency list of a later `freqList=None` call
on the post-failure state is the truncated input of the failed call. -/
theorem generateDacComb_notAtomic (nChannels : ℕ) (dacSampleRate : ℚ)
    (st : DacState) (freqList resAttenList : List ℚ) (globalDacAtten : ℚ)
    (phaseListArg : Option (List ℚ))
    (hlo : st.LOFreq = none)
    (hlen : freqList.length = resAttenList.length)
    (hph : phaseLenMismatch phaseListArg (truncList nChannels freqList).length = false)
    (hatt : (truncList nChannels resAttenList).any (fun a => a < globalDacAtten) = false) :
    generateDacCombCheck nChannels dacSampleRate st (some freqList) (some resAttenList)
        globalDacAtten phaseListArg
      = ({ st with freqList := truncList nChannels freqList,
                   attenList := truncList nChannels resAttenList },
         Except.error DacCombError.missingLO)
    ∧ dacFl nChannels
        { st with freqList := truncList nChannels freqList,
                  attenList := truncList nChannels resAttenList } none
      = truncList nChannels freqList := by
  have hfl : dacFl nChannels st (some freqList) = truncList nChannels freqList := by
    unfold dacFl
    rw [Option.getD_some]
  have hra : dacRa nChannels st (some freqList) (some resAttenList)
      = truncList nChannels resAttenList := by
    unfold dacRa
    rw [Option.getD_some]
  have hlen' : (truncList nChannels freqList).length
      = (truncList nChannels resAttenList).length := by
    unfold truncList
    split_ifs with h1 h2 h3
    · rw [List.length_take, List.length_take]; omega
    · rw [List.length_take]; omega
    · rw [List.length_take]; omega
    · exact hlen
  constructor
  · unfold generateDacCombCheck
    rw [hfl, hra, if_neg (fun h => h hlen'), hph, if_neg (by simp), hatt, if_neg (by simp),
      hlo]
  · unfold dacFl truncList
    rw [Option.getD_none]
    show (if nChannels < (truncList nChannels freqList).length then _ else _) = _
    rw [if_neg ?_]
    unfold truncList
    split_ifs with h1
    · rw [List.length_take]
      omega
    · omega

/-- C10 witness: a failing call with LO unset overwrites the stored
lists. -/
theorem generateDacComb_notAtomic_witness :
    (generateDacCombCheck 1024 2000000000 ⟨[7], [20], none⟩ (some [100]) (some [30]) 10 none
      = (⟨[100], [30], none⟩, Except.error DacCombError.missingLO))
    ∧ dacFl 1024 ⟨[100], [30], none⟩ none = [100] := by
  have h := generateDacComb_notAtomic 1024 2000000000 ⟨[7], [20], none⟩ [100] [30] 10 none
    rfl (by decide) (by decide) (by decide)
  simpa [truncList] using h

/-!
### ResidualToneBuilder: `generateDdsTones` (Roach2Controls.py lines 207-321)

Per stream, the code selects the cells whose DAC-quantized frequency is
strictly positive (`np.where(dacQuantizedFreqList[:,i]>0)`, lines 271 and
275), synthesizes a tone row per selected cell, pads with all-zero rows
up to `nChannelsPerStream` (lines 290-297), and interleaves the rows in
runs of `nDdsSamplesPerCycle` samples (reshape/swapaxes/flatten, lines
298-303).  The DAC quantization (lines 247-250) is the same formula as
in `generateFftChanSelection` and is embedded by `dacQuantizedFreq`.
Each grid cell is carried as a `(frequency, fftBinIndex, phase)` triple;
the per-cell tone row (the scaled and rounded samples of the DDS tone,
lines 254-282) is abstracted as a function argument `toneRow`, since the
claims about this stage concern only which cells get tones and what the
omitted cells contribute. -/

/-- C9: a tone is synthesized for a cell only when its DAC-quantized
frequency is strictly positive.  A channel whose resonance frequency
equals the LO frequency quantizes to exactly 0 Hz, so it is dropped by
the strict filter exactly like a pad channel, and its stream is the same
as if the cell were absent — the missing slot is backfilled by an
explicit all-zero sample row (`np.zeros`, line 290). -/
theorem ddsStream_zero_freq (P : FftParams) (nChannelsPerStream nDdsSamples spc : ℕ)
    (toneRow : ℚ × ℤ × ℚ → List ℤ) (col : List (ℚ × ℤ × ℚ)) :
    dacQuantizedFreq P P.LOFreq = 0
    ∧ ddsStream P nChannelsPerStream nDdsSamples spc toneRow
        (col.filter (fun c => 0 < dacQuantizedFreq P c.1))
      = ddsStream P nChannelsPerStream nDdsSamples spc toneRow col
    ∧ (col.filter (fun c => 0 < dacQuantizedFreq P c.1) = [] →
        ∀ x ∈ ddsStream P nChannelsPerStream nDdsSamples spc toneRow col, x = 0) := by
  refine ⟨?_, ?_, ?_⟩
  · unfold dacQuantizedFreq aliasDac
    rw [sub_self, if_neg (lt_irrefl 0), zero_div,
      show ((0 : ℚ) = ((0 : ℤ) : ℚ)) from rfl, npRound_intCast]
    exact zero_mul _
  · unfold ddsStream
    rw [List.filter_filter,
      show (fun (c : ℚ × ℤ × ℚ) =>
          decide (0 < dacQuantizedFreq P c.1) && decide (0 < dacQuantizedFreq P c.1))
        = (fun c => decide (0 < dacQuantizedFreq P c.1)) from
        funext fun c => Bool.and_self _]
  · intro hnone x hx
    unfold ddsStream at hx
    rw [hnone] at hx
    unfold interleaveRows at hx
    obtain ⟨block, hblock, hxb⟩ := List.mem_flatten.mp hx
    obtain ⟨b, _, rfl⟩ := List.mem_map.mp hblock
    obtain ⟨chunk, hchunk, hxc⟩ := List.mem_flatten.mp hxb
    obtain ⟨row, hrow, rfl⟩ := List.mem_map.mp hchunk
    rw [List.map_nil, List.nil_append] at hrow
    have hrow0 : row = List.replicate nDdsSamples 0 := List.eq_of_mem_replicate hrow
    subst hrow0
    exact List.eq_of_mem_replicate
      (List.mem_of_mem_drop (List.mem_of_mem_take hxc))

end Roach2
